import Mathlib

/-!
Verification of the ControlDependenceGraph analysis
(`include/Analysis/ControlDependenceGraph.h`).

Part A embeds, directly from the header, the declarations whose bodies are
present there: the `ControlDependenceNode` container with its three labelled
child lists, the `edge_iterator` state machine, the `bbMap` lookups
(`getNode`, `operator[]`, with `std::map::operator[]` default-insertion
semantics), and the DOT renderer labels.

Part B models, from the design document, the method bodies that the header
only declares (`getEdgeType`, `computeDependencies`, `insertRegions`,
`runOnFunction`, `controls`, `influences`).
-/

namespace CDG

/-- Edge labels, from `ControlDependenceNode::EdgeType`. -/
inductive CDEdgeType
  | TRUE
  | FALSE
  | OTHER
deriving DecidableEq, Repr

/-- A basic block, as far as the header observes it: `hasName()` and
`getName()`.  An LLVM block's name is an arbitrary string. -/
structure BB where
  hasName : Bool
  name : String
deriving DecidableEq, Repr

/-- `ControlDependenceNode`: an optional block reference (`TheBB`, NULL for
region nodes) plus the parent list and the three labelled child lists.
Links are modelled as node ids into the owning graph's arena. -/
structure ControlDependenceNode where
  TheBB : Option BB
  Parents : List Nat
  TrueChildren : List Nat
  FalseChildren : List Nat
  OtherChildren : List Nat
deriving DecidableEq, Repr

namespace ControlDependenceNode

/-- `getNumParents()`. -/
def getNumParents (n : ControlDependenceNode) : Nat := n.Parents.length

/-- `getNumChildren()`. -/
def getNumChildren (n : ControlDependenceNode) : Nat :=
  n.TrueChildren.length + n.FalseChildren.length + n.OtherChildren.length

/-- `isRegion()`: `TheBB == NULL`. -/
def isRegion (n : ControlDependenceNode) : Bool := n.TheBB = Option.none

/-- The child list the iterator walks during a given stage. -/
def listOf (n : ControlDependenceNode) : CDEdgeType → List Nat
  | .TRUE => n.TrueChildren
  | .FALSE => n.FalseChildren
  | .OTHER => n.OtherChildren

end ControlDependenceNode

/-- State of `ControlDependenceNode::edge_iterator`: the current stage and
the offset of `it` into that stage's child list (`it == end` iff
`idx = (listOf stage).length`). -/
structure EIter where
  stage : CDEdgeType
  idx : Nat
deriving DecidableEq, Repr

/-- The constructor/increment loop
`while ((stage != OTHER) && (it == end)) ...`: while the current stage is
exhausted and not OTHER, move to the next stage's begin/end. -/
def eiterNormalize (n : ControlDependenceNode) (st : CDEdgeType) (i : Nat) : EIter :=
  match st with
  | .TRUE =>
    if i = n.TrueChildren.length then
      (if n.FalseChildren.length = 0 then ⟨.OTHER, 0⟩ else ⟨.FALSE, 0⟩)
    else ⟨.TRUE, i⟩
  | .FALSE =>
    if i = n.FalseChildren.length then ⟨.OTHER, 0⟩ else ⟨.FALSE, i⟩
  | .OTHER => ⟨.OTHER, i⟩

/-- `begin()`: `edge_iterator(this)` starts at stage TRUE, offset 0, then
runs the skip loop. -/
def eiterBegin (n : ControlDependenceNode) : EIter := eiterNormalize n .TRUE 0

/-- `end()`: stage OTHER with `it = end = OtherChildren.end()`. -/
def eiterEnd (n : ControlDependenceNode) : EIter := ⟨.OTHER, n.OtherChildren.length⟩

/-- `operator++`: `if (it != end) ++it;` then the skip loop. -/
def eiterSucc (n : ControlDependenceNode) (s : EIter) : EIter :=
  if s.idx < (n.listOf s.stage).length then eiterNormalize n s.stage (s.idx + 1)
  else eiterNormalize n s.stage s.idx

/-- The full traversal from a given iterator state to `end()`, collecting
`(type(), *it)` at every position.  Fuel bounds the iteration; any fuel at
least `getNumChildren + 1` is enough from `begin()`. -/
def eiterTrace (n : ControlDependenceNode) : Nat → EIter → List (CDEdgeType × Nat)
  | 0, _ => []
  | fuel + 1, s =>
    if s = eiterEnd n then []
    else
      match (n.listOf s.stage).get? s.idx with
      | none => []
      | some c => (s.stage, c) :: eiterTrace n fuel (eiterSucc n s)

/-- `DOTGraphTraits::getNodeLabel`. -/
def getNodeLabel (n : ControlDependenceNode) : String :=
  if n.isRegion then "REGION"
  else
    match n.TheBB with
    | some b => if b.hasName then b.name else "ENTRY"
    | none => "REGION"

/-- `DOTGraphTraits::getEdgeSourceLabel`, a function of `I.type()`. -/
def getEdgeSourceLabel (t : CDEdgeType) : String :=
  match t with
  | .TRUE => "T"
  | .FALSE => "F"
  | .OTHER => ""

/-! `bbMap : std::map<BasicBlock *, ControlDependenceNode *>`, modelled as an
association list from block ids to nullable node pointers (`none` = NULL). -/

/-- `std::map::find` (as a lookup returning the mapped value when the key is
present). -/
def mapFind (m : List (Nat × Option Nat)) (k : Nat) : Option (Option Nat) :=
  match m with
  | [] => none
  | (k', v) :: rest => if k' = k then some v else mapFind rest k

/-- `std::map::operator[]`: returns the mapped value; when the key is absent
it value-initializes (a NULL pointer) and inserts that entry, returning the
grown map alongside. -/
def mapIndex (m : List (Nat × Option Nat)) (k : Nat) :
    Option Nat × List (Nat × Option Nat) :=
  match mapFind m k with
  | some v => (v, m)
  | none => (none, m ++ [(k, none)])

/-- Non-const `getNode(BB)`: `return bbMap[BB];` — the lookup itself may grow
the map, so the result is the returned pointer paired with the map after the
call. -/
def getNodeMut (m : List (Nat × Option Nat)) (b : Nat) :
    Option Nat × List (Nat × Option Nat) :=
  mapIndex m b

/-- Const `getNode(BB)`:
`(bbMap.find(BB) != bbMap.end()) ? bbMap.find(BB)->second : NULL`, paired
with the map after the call (which the body never touches). -/
def getNodeConstSt (m : List (Nat × Option Nat)) (b : Nat) :
    Option Nat × List (Nat × Option Nat) :=
  match mapFind m b with
  | some v => (v, m)
  | none => (none, m)

/-- Non-const `operator[](BB)`: forwards to non-const `getNode`. -/
def opIndexMut (m : List (Nat × Option Nat)) (b : Nat) :
    Option Nat × List (Nat × Option Nat) :=
  getNodeMut m b

/-- Const `operator[](BB)`: forwards to const `getNode`. -/
def opIndexConstSt (m : List (Nat × Option Nat)) (b : Nat) :
    Option Nat × List (Nat × Option Nat) :=
  getNodeConstSt m b

/-! ## Part B: the construction, modelled from the design document

The header declares `getEdgeType`, `computeDependencies`, `insertRegions`,
`runOnFunction`, `controls` and `influences` without bodies; the model below
follows the design document's algorithm descriptions (§4.1–§4.4). -/

/-- Identity of a node in the built graph: the distinguished root, the node
of a CFG block, or a synthetic region created during compaction. -/
inductive CDNodeId
  | root
  | block (b : Nat)
  | region (i : Nat)
deriving DecidableEq, Repr

/-- The built control dependence graph: its node set and its labelled
parent→child dependence edges `(parent, label, child)`. -/
structure CDGraph where
  nodes : List CDNodeId
  edges : List (CDNodeId × CDEdgeType × CDNodeId)
deriving DecidableEq, Repr

/-- The parents of a node: sources of the edges into it. -/
def parentsOf (g : CDGraph) (n : CDNodeId) : List CDNodeId :=
  (g.edges.filter (fun e => e.2.2 = n)).map (fun e => e.1)

/-- The labelled parent edges of a node: `(parent, label)` for each edge
into it. -/
def parentEdgesOf (g : CDGraph) (n : CDNodeId) : List (CDNodeId × CDEdgeType) :=
  (g.edges.filter (fun e => e.2.2 = n)).map (fun e => (e.1, e.2.1))

/-- The children of a node under one label. -/
def childrenOf (g : CDGraph) (n : CDNodeId) (t : CDEdgeType) : List CDNodeId :=
  (g.edges.filter (fun e => e.1 = n ∧ e.2.1 = t)).map (fun e => e.2.2)

/-- The children of a node under any label. -/
def childrenAll (g : CDGraph) (n : CDNodeId) : List CDNodeId :=
  (g.edges.filter (fun e => e.1 = n)).map (fun e => e.2.2)

/-- Number of parents of a node of the built graph. -/
def numParents (g : CDGraph) (n : CDNodeId) : Nat := (parentsOf g n).length

/-- A block's terminator, as far as the edge classifier observes it: a
two-way conditional with a true arm and a false arm, an unconditional
branch, a switch (any number of arms), or no successor. -/
inductive Terminator
  | condBr (t f : Nat)
  | br (d : Nat)
  | switch (ds : List Nat)
  | ret
deriving DecidableEq, Repr

/-- Modelled from the spec: `ControlDependenceGraph::getEdgeType` (body not
in the header).  §4.1: on a two-way conditional the true arm is TRUE and the
other arm FALSE; every other kind of edge is OTHER. -/
def getEdgeType (term : Terminator) (succ : Nat) : CDEdgeType :=
  match term with
  | .condBr t _ => if succ = t then .TRUE else .FALSE
  | _ => .OTHER

/-- CFG successors of a block, read off its terminator. -/
def successors : Terminator → List Nat
  | .condBr t f => [t, f]
  | .br d => [d]
  | .switch ds => ds
  | .ret => []

/-- The post-dominator oracle (§2, external collaborator): ancestor test,
immediate post-dominator, nearest common ancestor. -/
structure PDTOracle where
  postDominates : Nat → Nat → Bool
  ipdom : Nat → Option Nat
  nca : Nat → Nat → Nat

/-- A procedure's CFG together with its post-dominator oracle: the reachable
blocks and each block's terminator. -/
structure CFG where
  blocks : List Nat
  term : Nat → Terminator
  pdt : PDTOracle

/-- All CFG edges `(A, B)`, in block order. -/
def cfgEdges (cfg : CFG) : List (Nat × Nat) :=
  (cfg.blocks.map (fun a => (successors (cfg.term a)).map (fun b => (a, b)))).flatten

/-- Modelled from the spec (§4.2 step 2b): walk the post-dominator tree from
`w`, moving to each node's immediate post-dominator, stopping before
reaching `L` (excluding `L` itself).  Fuel bounds the walk. -/
def pdomWalk (o : PDTOracle) : Nat → Nat → Nat → List Nat
  | 0, _, _ => []
  | fuel + 1, w, L =>
    if w = L then []
    else
      w :: (match o.ipdom w with
            | none => []
            | some p => pdomWalk o fuel p L)

/-- Record a dependence edge idempotently (§4.2 step 2c: duplicate
`(A, W, label)` links are recorded once). -/
def insertDep (es : List (CDNodeId × CDEdgeType × CDNodeId))
    (e : CDNodeId × CDEdgeType × CDNodeId) :
    List (CDNodeId × CDEdgeType × CDNodeId) :=
  if e ∈ es then es else es ++ [e]

/-- Modelled from the spec (§4.2 step 2): process one CFG edge `(A, B)`.
When B does not post-dominate A, every node on the post-dominator walk from
B up to (excluding) `nca A B` becomes control-dependent on A, labelled by
the classification of the edge. -/
def processEdge (cfg : CFG) (es : List (CDNodeId × CDEdgeType × CDNodeId))
    (ab : Nat × Nat) : List (CDNodeId × CDEdgeType × CDNodeId) :=
  if cfg.pdt.postDominates ab.2 ab.1 then es
  else
    let L := cfg.pdt.nca ab.1 ab.2
    let ws := pdomWalk cfg.pdt (cfg.blocks.length + 1) ab.2 L
    let ty := getEdgeType (cfg.term ab.1) ab.2
    ws.foldl (fun acc w => insertDep acc (.block ab.1, ty, .block w)) es

/-- Modelled from the spec (§4.2 step 3): every node still having zero
parents is attached as an OTHER child of root. -/
def attachRoot (g : CDGraph) : CDGraph :=
  { g with
    edges := g.edges ++
      ((g.nodes.filter (fun n => n ≠ .root ∧ parentsOf g n = [])).map
        (fun n => (CDNodeId.root, CDEdgeType.OTHER, n))) }

/-- The raw graph after §4.2 steps 1–2: one node per reachable block plus
root, and the dependence edges gathered from every CFG edge. -/
def rawGraph (cfg : CFG) : CDGraph :=
  { nodes := .root :: cfg.blocks.map .block,
    edges := (cfgEdges cfg).foldl (processEdge cfg) [] }

/-- Modelled from the spec: `ControlDependenceGraph::computeDependencies`
(body not in the header).  §4.2: one node per reachable block plus root,
dependence edges from every CFG edge whose target does not post-dominate its
source, then parentless nodes attached under root. -/
def computeDependencies (cfg : CFG) : CDGraph :=
  attachRoot (rawGraph cfg)

/-- Set-equality of two nodes' labelled parent-edge sets (§4.3: nodes
executed under exactly the same control conditions — same parents with the
same labels, regardless of order). -/
def sigEq (g : CDGraph) (a b : CDNodeId) : Bool :=
  (parentEdgesOf g a).all (fun e => e ∈ parentEdgesOf g b) &&
  (parentEdgesOf g b).all (fun e => e ∈ parentEdgesOf g a)

/-- Insert a node into the partition: append it to the first group whose
representative (head) has the same parent-edge set, or open a new group. -/
def insertGroup (g : CDGraph) (n : CDNodeId) :
    List (List CDNodeId) → List (List CDNodeId)
  | [] => [[n]]
  | grp :: rest =>
    match grp with
    | [] => [n] :: rest
    | m :: _ => if sigEq g m n then (grp ++ [n]) :: rest else grp :: insertGroup g n rest

/-- The non-root nodes of the graph, in node order. -/
def nonRootNodes (g : CDGraph) : List CDNodeId :=
  g.nodes.filter (fun n => n ≠ .root)

/-- Modelled from the spec (§4.3 step 1): partition all non-root nodes by
parent-set equality. -/
def partitions (g : CDGraph) : List (List CDNodeId) :=
  (nonRootNodes g).foldl (fun acc n => insertGroup g n acc) []

/-- Pair each list element with its position, starting at `k`. -/
def indexed {α : Type} : Nat → List α → List (Nat × α)
  | _, [] => []
  | k, a :: l => (k, a) :: indexed (k + 1) l

/-- The invariant the partition fold maintains: every group is nonempty and
coheres around its head's labelled parent-edge set, and nodes from distinct
groups never have equal labelled parent-edge sets. -/
def sameSigGroups (g : CDGraph) (gs : List (List CDNodeId)) : Prop :=
  (∀ p ∈ gs, ∃ h t, p = h :: t ∧ ∀ x ∈ p, sigEq g h x = true) ∧
  List.Pairwise (fun p q => ∀ x ∈ p, ∀ y ∈ q, ¬ (sigEq g x y = true)) gs

/-- The partitions containing more than one node, each paired with the
(fresh) id of the region node created for it. -/
def multiParts (g : CDGraph) : List (Nat × List CDNodeId) :=
  indexed 0 ((partitions g).filter (fun p => 1 < p.length))

/-- The nodes folded under some region. -/
def memberSet (g : CDGraph) : List CDNodeId :=
  ((multiParts g).map Prod.snd).flatten

/-- Edges untouched by compaction: all edges not pointing into a folded
node. -/
def keptEdges (g : CDGraph) : List (CDNodeId × CDEdgeType × CDNodeId) :=
  g.edges.filter (fun e => e.2.2 ∉ memberSet g)

/-- The members' common parent links, redirected to their region (label
preserved from one representative, §4.3 step 2). -/
def redirectedEdges (g : CDGraph) : List (CDNodeId × CDEdgeType × CDNodeId) :=
  ((multiParts g).map (fun ip =>
    match ip.2 with
    | [] => []
    | rep :: _ => (parentEdgesOf g rep).map
        (fun pl => (pl.1, pl.2, CDNodeId.region ip.1)))).flatten

/-- Each folded node becomes an OTHER child of its region, the region its
sole parent (§4.3 step 2). -/
def memberEdges (g : CDGraph) : List (CDNodeId × CDEdgeType × CDNodeId) :=
  ((multiParts g).map (fun ip =>
    ip.2.map (fun m => (CDNodeId.region ip.1, CDEdgeType.OTHER, m)))).flatten

/-- Modelled from the spec: `ControlDependenceGraph::insertRegions` (body
not in the header).  §4.3: for each partition with more than one member,
create a region node; redirect the members' common parent links (label
preserved from one representative) to the region; make the members OTHER
children of the region, the region becoming their sole parent.  Partitions
of size one are untouched. -/
def insertRegions (g : CDGraph) : CDGraph :=
  { nodes := g.nodes ++ (multiParts g).map (fun ip => CDNodeId.region ip.1),
    edges := keptEdges g ++ redirectedEdges g ++ memberEdges g }

/-- Modelled from the spec: `ControlDependenceGraph::runOnFunction` (body
not in the header).  §2 data flow: dependence builder, then region
compactor. -/
def runOnFunction (cfg : CFG) : CDGraph :=
  insertRegions (computeDependencies cfg)

/-- Depth-first reachability with visited-marking (§4.4), threading the
graph through the recursion: the search reads the graph and mutates only
its own stack and visited list. -/
def dfsReachSt : Nat → CDGraph → List CDNodeId → List CDNodeId →
    List CDNodeId × CDGraph
  | 0, g, _, visited => (visited, g)
  | _ + 1, g, [], visited => (visited, g)
  | fuel + 1, g, x :: stack, visited =>
    if x ∈ visited then dfsReachSt fuel g stack visited
    else dfsReachSt fuel g (childrenAll g x ++ stack) (x :: visited)

/-- Fuel sufficient for the bounded DFS over the built graph. -/
def dfsFuel (g : CDGraph) : Nat :=
  g.nodes.length * g.edges.length + g.edges.length + g.nodes.length + 1

/-- Modelled from the spec: `ControlDependenceGraph::controls` (body not in
the header).  §4.4: B's node is reachable from A's node by one or more
child edges (zero excluded), via depth-first search. -/
def controlsSt (g : CDGraph) (a b : Nat) : Bool × CDGraph :=
  let r := dfsReachSt (dfsFuel g) g (childrenAll g (.block a)) []
  (decide ((CDNodeId.block b) ∈ r.1), r.2)

/-- The boolean answer of `controls`. -/
def controls (g : CDGraph) (a b : Nat) : Bool := (controlsSt g a b).1

/-- Modelled from the spec: `ControlDependenceGraph::influences` (body not
in the header).  §4.4: A's node is an ancestor of B's node or B's node is an
ancestor of A's. -/
def influencesSt (g : CDGraph) (a b : Nat) : Bool × CDGraph :=
  let r1 := controlsSt g a b
  let r2 := controlsSt r1.2 b a
  (r1.1 || r2.1, r2.2)

/-- The boolean answer of `influences`. -/
def influences (g : CDGraph) (a b : Nat) : Bool := (influencesSt g a b).1

/-! ## Concrete procedures used by the testable properties -/

/-- The diamond CFG `A -> B, A -> C, B -> D, C -> D` (blocks 0,1,2,3): A
ends in a two-way conditional with true arm B and false arm C; D
post-dominates everything. -/
def diamondCFG : CFG :=
  { blocks := [0, 1, 2, 3],
    term := fun b =>
      match b with
      | 0 => .condBr 1 2
      | 1 => .br 3
      | 2 => .br 3
      | _ => .ret,
    pdt :=
      { postDominates := fun x y => x = y || x = 3,
        ipdom := fun b => if b = 3 then none else some 3,
        nca := fun x y => if x = y then x else 3 } }

/-- A procedure with a single basic block (block 0) and no CFG edges. -/
def singleBlockCFG : CFG :=
  { blocks := [0],
    term := fun _ => .ret,
    pdt :=
      { postDominates := fun x y => x = y,
        ipdom := fun _ => none,
        nca := fun x y => if x = y then x else 0 } }

/-! ## Lemmas and theorems -/

/-- Lookup of a key absent from the association list fails. -/
theorem mapFind_eq_none {m : List (Nat × Option Nat)} {b : Nat}
    (h : b ∉ m.map Prod.fst) : mapFind m b = none := by
  induction m with
  | nil => rfl
  | cons kv rest ih =>
    obtain ⟨k, v⟩ := kv
    simp only [List.map_cons, List.mem_cons, not_or] at h
    have hk : ¬ (k = b) := fun hk => h.1 hk.symm
    rw [show mapFind ((k, v) :: rest) b = if k = b then some v else mapFind rest b from rfl,
      if_neg hk]
    exact ih h.2

/-- Lookup after appending a fresh binding finds that binding. -/
theorem mapFind_append_self {m : List (Nat × Option Nat)} {b : Nat}
    (h : mapFind m b = none) (v : Option Nat) :
    mapFind (m ++ [(b, v)]) b = some v := by
  induction m with
  | nil => simp [mapFind]
  | cons kv rest ih =>
    obtain ⟨k, w⟩ := kv
    by_cases hk : k = b
    · simp [mapFind, hk] at h
    · simp only [mapFind, if_neg hk] at h
      simpa [mapFind, if_neg hk] using ih h

/-- Claim C5: for every block absent from the block-to-node index, the const
`getNode`, the non-const `getNode`, and both `operator[]` forms return NULL
rather than a node for some other block. -/
theorem C5_getNode_absent_null (m : List (Nat × Option Nat)) (b : Nat)
    (h : b ∉ m.map Prod.fst) :
    (getNodeConstSt m b).1 = none ∧ (getNodeMut m b).1 = none ∧
    (opIndexConstSt m b).1 = none ∧ (opIndexMut m b).1 = none := by
  have hf : mapFind m b = none := mapFind_eq_none h
  refine ⟨?_, ?_, ?_, ?_⟩ <;>
    simp [getNodeConstSt, getNodeMut, opIndexConstSt, opIndexMut, mapIndex, hf]

/-- Witness for C5 at the empty index and block 0. -/
theorem C5_witness :
    (getNodeConstSt [] 0).1 = none ∧ (getNodeMut [] 0).1 = none ∧
    (opIndexConstSt [] 0).1 = none ∧ (opIndexMut [] 0).1 = none :=
  C5_getNode_absent_null [] 0 (by simp)

/-- Claim C10: for a block absent from the index, the non-const `getNode`
(and `operator[]`) default-inserts a NULL entry for it — the index grows by
exactly one entry and afterwards maps the block to NULL — while the const
`getNode` returns NULL and leaves the index unchanged. -/
theorem C10_getNode_insertion (m : List (Nat × Option Nat)) (b : Nat)
    (h : b ∉ m.map Prod.fst) :
    getNodeMut m b = (none, m ++ [(b, none)]) ∧
    (getNodeMut m b).2.length = m.length + 1 ∧
    mapFind (getNodeMut m b).2 b = some none ∧
    getNodeConstSt m b = (none, m) ∧
    opIndexMut m b = (none, m ++ [(b, none)]) := by
  have hf : mapFind m b = none := mapFind_eq_none h
  have h1 : getNodeMut m b = (none, m ++ [(b, none)]) := by
    simp [getNodeMut, mapIndex, hf]
  refine ⟨h1, ?_, ?_, ?_, h1⟩
  · simp [h1]
  · rw [h1]
    exact mapFind_append_self hf none
  · simp [getNodeConstSt, hf]

/-- Witness for C10 at the index `[(1, some 5)]` and block 2. -/
theorem C10_witness :
    getNodeMut [(1, some 5)] 2 = (none, [(1, some 5)] ++ [(2, none)]) ∧
    (getNodeMut [(1, some 5)] 2).2.length = [(1, some 5)].length + 1 ∧
    mapFind (getNodeMut [(1, some 5)] 2).2 2 = some none ∧
    getNodeConstSt [(1, some 5)] 2 = (none, [(1, some 5)]) ∧
    opIndexMut [(1, some 5)] 2 = (none, [(1, some 5)] ++ [(2, none)]) :=
  C10_getNode_insertion [(1, some 5)] 2 (by simp)

/-- The bounded DFS threads the graph through unchanged. -/
theorem dfsReachSt_snd (fuel : Nat) (g : CDGraph) (stack visited : List CDNodeId) :
    (dfsReachSt fuel g stack visited).2 = g := by
  induction fuel generalizing stack visited with
  | zero => rfl
  | succ fuel ih =>
    cases stack with
    | nil => rfl
    | cons x rest =>
      by_cases hx : x ∈ visited
      · simpa [dfsReachSt, hx] using ih rest visited
      · simpa [dfsReachSt, hx] using ih (childrenAll g x ++ rest) (x :: visited)

/-- Claim C6: `controls` and `influences` are read-only — the graph coming
out of either query is the graph that went in, so node set, edges (hence
every node's parent and child lists) and root are untouched. -/
theorem C6_queries_pure (g : CDGraph) (a b : Nat) :
    (controlsSt g a b).2 = g ∧ (influencesSt g a b).2 = g := by
  have hc : ∀ (g' : CDGraph) (x y : Nat), (controlsSt g' x y).2 = g' := by
    intro g' x y
    simp [controlsSt, dfsReachSt_snd]
  refine ⟨hc g a b, ?_⟩
  simp [influencesSt, hc]

/-- Claim C7 (amendable to nothing — the model is a function of the CFG):
two builds from the same CFG and post-dominator tree produce graphs with the
same node set and identical labelled parent/child relations. -/
theorem C7_deterministic (cfg cfg' : CFG) (h : cfg = cfg') :
    (runOnFunction cfg).nodes = (runOnFunction cfg').nodes ∧
    (∀ n t, childrenOf (runOnFunction cfg) n t = childrenOf (runOnFunction cfg') n t) ∧
    (∀ n, parentEdgesOf (runOnFunction cfg) n = parentEdgesOf (runOnFunction cfg') n) := by
  subst h
  exact ⟨rfl, fun _ _ => rfl, fun _ => rfl⟩

/-- Witness for C7 at the diamond CFG. -/
theorem C7_witness :
    (runOnFunction diamondCFG).nodes = (runOnFunction diamondCFG).nodes ∧
    (∀ n t, childrenOf (runOnFunction diamondCFG) n t =
      childrenOf (runOnFunction diamondCFG) n t) ∧
    (∀ n, parentEdgesOf (runOnFunction diamondCFG) n =
      parentEdgesOf (runOnFunction diamondCFG) n) :=
  C7_deterministic diamondCFG diamondCFG rfl

/-- Claim C4: the single-block procedure yields exactly root plus the block
node, the block an OTHER-child of root with no other dependence edge, and
`controls(entry, entry)` is false. -/
theorem C4_single_block :
    (runOnFunction singleBlockCFG).nodes = [.root, .block 0] ∧
    (runOnFunction singleBlockCFG).edges = [(.root, .OTHER, .block 0)] ∧
    controls (runOnFunction singleBlockCFG) 0 0 = false := by
  decide

/-- Counterexample to claim C1 as stated: on the diamond built by
`runOnFunction`, D (block 3) is not an OTHER-child of root — compaction put
it under a shared region — so the claimed conjunction fails. -/
theorem C1_counterexample :
    ¬ ((CDNodeId.block 1) ∈ childrenOf (runOnFunction diamondCFG) (.block 0) .TRUE ∧
       (CDNodeId.block 2) ∈ childrenOf (runOnFunction diamondCFG) (.block 0) .FALSE ∧
       (CDNodeId.block 3) ∈ childrenOf (runOnFunction diamondCFG) .root .OTHER ∧
       (CDNodeId.block 0) ∉ parentsOf (runOnFunction diamondCFG) (.block 3)) := by
  decide

/-- Claim C1 amended: on the diamond, B is a TRUE-child and C a FALSE-child
of A's node; there is no dependence edge (nor any dependence path) from A to
D; and D is an OTHER-child of a region node that is itself an OTHER-child of
root (rather than a direct child of root). -/
theorem C1_diamond_amended :
    (CDNodeId.block 1) ∈ childrenOf (runOnFunction diamondCFG) (.block 0) .TRUE ∧
    (CDNodeId.block 2) ∈ childrenOf (runOnFunction diamondCFG) (.block 0) .FALSE ∧
    (CDNodeId.block 0) ∉ parentsOf (runOnFunction diamondCFG) (.block 3) ∧
    controls (runOnFunction diamondCFG) 0 3 = false ∧
    (CDNodeId.block 3) ∈ childrenOf (runOnFunction diamondCFG) (.region 0) .OTHER ∧
    (CDNodeId.region 0) ∈ childrenOf (runOnFunction diamondCFG) .root .OTHER := by
  decide

/-- Counterexample to claim C8 as stated: a block literally named "REGION"
makes the renderer print "REGION" for a non-region node, so the label is not
"REGION" *exactly* when the node is a region. -/
theorem C8_counterexample :
    ¬ (getNodeLabel ⟨some ⟨true, "REGION"⟩, [], [], [], []⟩ = "REGION" ↔
       (ControlDependenceNode.isRegion ⟨some ⟨true, "REGION"⟩, [], [], [], []⟩) = true) := by
  decide

/-- Claim C8 amended: the renderer prints "REGION" for every region node and
the block's name (or "ENTRY" when nameless) for every block node — so a
block named "REGION" also displays "REGION" — and the per-edge source label
is "T" for TRUE, "F" for FALSE, and empty for OTHER. -/
theorem C8_labels (n : ControlDependenceNode) :
    (n.isRegion = true → getNodeLabel n = "REGION") ∧
    (∀ b, n.TheBB = some b →
      getNodeLabel n = if b.hasName then b.name else "ENTRY") ∧
    getEdgeSourceLabel .TRUE = "T" ∧ getEdgeSourceLabel .FALSE = "F" ∧
    getEdgeSourceLabel .OTHER = "" := by
  refine ⟨?_, ?_, rfl, rfl, rfl⟩
  · intro h
    simp [getNodeLabel, h]
  · intro b hb
    have : n.isRegion = false := by
      simp [ControlDependenceNode.isRegion, hb]
    simp [getNodeLabel, this, hb]

/-- Witness for C8 at a region node and at an unnamed block node. -/
theorem C8_witness :
    getNodeLabel ⟨none, [], [], [], []⟩ = "REGION" ∧
    getNodeLabel ⟨some ⟨false, ""⟩, [], [], [], []⟩ = "ENTRY" :=
  ⟨(C8_labels ⟨none, [], [], [], []⟩).1 (by decide),
   (C8_labels ⟨some ⟨false, ""⟩, [], [], [], []⟩).2.1 ⟨false, ""⟩ rfl⟩

/-! ### The edge iterator visits TRUE, then FALSE, then OTHER children -/

/-- Peeling one element off a mapped drop. -/
theorem map_drop_succ {β : Type} (f : Nat → β) (l : List Nat) (i : Nat)
    (h : i < l.length) :
    f (l.get ⟨i, h⟩) :: (l.drop (i + 1)).map f = (l.drop i).map f := by
  rw [← List.getElem_cons_drop l i h]
  rfl

/-- From an OTHER-stage state the iterator yields the remaining OTHER
children. -/
theorem eiterTrace_other (n : ControlDependenceNode) :
    ∀ (k i : Nat), i ≤ n.OtherChildren.length →
      n.OtherChildren.length - i ≤ k →
      eiterTrace n k ⟨.OTHER, i⟩ =
        (n.OtherChildren.drop i).map (fun c => (CDEdgeType.OTHER, c)) := by
  intro k
  induction k with
  | zero =>
    intro i h1 h2
    have : i = n.OtherChildren.length := by omega
    subst this
    simp [eiterTrace]
  | succ k ih =>
    intro i h1 h2
    by_cases hi : i = n.OtherChildren.length
    · subst hi
      simp [eiterTrace, eiterEnd]
    · have hlt : i < n.OtherChildren.length := by omega
      have hne : (⟨.OTHER, i⟩ : EIter) ≠ eiterEnd n := by
        simp [eiterEnd]
        omega
      have hget : (n.listOf CDEdgeType.OTHER).get? i =
          some (n.OtherChildren.get ⟨i, hlt⟩) := by
        simp [ControlDependenceNode.listOf, List.get?_eq_get hlt]
      have hsucc : eiterSucc n ⟨.OTHER, i⟩ = ⟨.OTHER, i + 1⟩ := by
        simp [eiterSucc, ControlDependenceNode.listOf, hlt, eiterNormalize]
      rw [show eiterTrace n (k + 1) ⟨.OTHER, i⟩ =
        if (⟨CDEdgeType.OTHER, i⟩ : EIter) = eiterEnd n then []
        else
          match (n.listOf CDEdgeType.OTHER).get? i with
          | none => []
          | some c => (CDEdgeType.OTHER, c) :: eiterTrace n k (eiterSucc n ⟨.OTHER, i⟩)
        from rfl, if_neg hne, hget]
      rw [hsucc, ih (i + 1) (by omega) (by omega),
        ← map_drop_succ (fun c => (CDEdgeType.OTHER, c)) n.OtherChildren i hlt]

/-- From a FALSE-stage state (not yet exhausted) the iterator yields the
remaining FALSE children and then all OTHER children. -/
theorem eiterTrace_false (n : ControlDependenceNode) :
    ∀ (k i : Nat), i < n.FalseChildren.length →
      n.FalseChildren.length - i + n.OtherChildren.length ≤ k →
      eiterTrace n k ⟨.FALSE, i⟩ =
        (n.FalseChildren.drop i).map (fun c => (CDEdgeType.FALSE, c)) ++
        n.OtherChildren.map (fun c => (CDEdgeType.OTHER, c)) := by
  intro k
  induction k with
  | zero =>
    intro i h1 h2
    omega
  | succ k ih =>
    intro i h1 h2
    have hne : (⟨.FALSE, i⟩ : EIter) ≠ eiterEnd n := by
      simp [eiterEnd]
    have hget : (n.listOf CDEdgeType.FALSE).get? i =
        some (n.FalseChildren.get ⟨i, h1⟩) := by
      simp [ControlDependenceNode.listOf, List.get?_eq_get h1]
    rw [show eiterTrace n (k + 1) ⟨.FALSE, i⟩ =
      if (⟨CDEdgeType.FALSE, i⟩ : EIter) = eiterEnd n then []
      else
        match (n.listOf CDEdgeType.FALSE).get? i with
        | none => []
        | some c => (CDEdgeType.FALSE, c) :: eiterTrace n k (eiterSucc n ⟨.FALSE, i⟩)
      from rfl, if_neg hne, hget]
    by_cases hF : i + 1 = n.FalseChildren.length
    · have hsucc : eiterSucc n ⟨.FALSE, i⟩ = ⟨.OTHER, 0⟩ := by
        simp [eiterSucc, ControlDependenceNode.listOf, h1, eiterNormalize, hF]
      have hnil : n.FalseChildren.drop (i + 1) = [] := by
        rw [hF]
        exact List.drop_length _
      rw [hsucc, eiterTrace_other n k 0 (by omega) (by omega),
        ← map_drop_succ (fun c => (CDEdgeType.FALSE, c)) n.FalseChildren i h1, hnil]
      simp
    · have hlt2 : i + 1 < n.FalseChildren.length := by omega
      have hsucc : eiterSucc n ⟨.FALSE, i⟩ = ⟨.FALSE, i + 1⟩ := by
        simp [eiterSucc, ControlDependenceNode.listOf, h1, eiterNormalize, hF]
      rw [hsucc, ih (i + 1) hlt2 (by omega),
        ← map_drop_succ (fun c => (CDEdgeType.FALSE, c)) n.FalseChildren i h1,
        List.cons_append]

/-- From a TRUE-stage state (not yet exhausted) the iterator yields the
remaining TRUE children, then all FALSE children, then all OTHER children. -/
theorem eiterTrace_true (n : ControlDependenceNode) :
    ∀ (k i : Nat), i < n.TrueChildren.length →
      n.TrueChildren.length - i + n.FalseChildren.length +
        n.OtherChildren.length ≤ k →
      eiterTrace n k ⟨.TRUE, i⟩ =
        (n.TrueChildren.drop i).map (fun c => (CDEdgeType.TRUE, c)) ++
        n.FalseChildren.map (fun c => (CDEdgeType.FALSE, c)) ++
        n.OtherChildren.map (fun c => (CDEdgeType.OTHER, c)) := by
  intro k
  induction k with
  | zero =>
    intro i h1 h2
    omega
  | succ k ih =>
    intro i h1 h2
    have hne : (⟨.TRUE, i⟩ : EIter) ≠ eiterEnd n := by
      simp [eiterEnd]
    have hget : (n.listOf CDEdgeType.TRUE).get? i =
        some (n.TrueChildren.get ⟨i, h1⟩) := by
      simp [ControlDependenceNode.listOf, List.get?_eq_get h1]
    rw [show eiterTrace n (k + 1) ⟨.TRUE, i⟩ =
      if (⟨CDEdgeType.TRUE, i⟩ : EIter) = eiterEnd n then []
      else
        match (n.listOf CDEdgeType.TRUE).get? i with
        | none => []
        | some c => (CDEdgeType.TRUE, c) :: eiterTrace n k (eiterSucc n ⟨.TRUE, i⟩)
      from rfl, if_neg hne, hget]
    by_cases hT : i + 1 = n.TrueChildren.length
    · have hnil : n.TrueChildren.drop (i + 1) = [] := by
        rw [hT]
        exact List.drop_length _
      by_cases hF : n.FalseChildren.length = 0
      · have hsucc : eiterSucc n ⟨.TRUE, i⟩ = ⟨.OTHER, 0⟩ := by
          simp [eiterSucc, ControlDependenceNode.listOf, h1, eiterNormalize, hT, hF]
        have hFnil : n.FalseChildren = [] := List.eq_nil_of_length_eq_zero hF
        rw [hsucc, eiterTrace_other n k 0 (by omega) (by omega),
          ← map_drop_succ (fun c => (CDEdgeType.TRUE, c)) n.TrueChildren i h1, hnil]
        simp [hFnil]
      · have hsucc : eiterSucc n ⟨.TRUE, i⟩ = ⟨.FALSE, 0⟩ := by
          simp [eiterSucc, ControlDependenceNode.listOf, h1, eiterNormalize, hT, hF]
        rw [hsucc, eiterTrace_false n k 0 (by omega) (by omega),
          ← map_drop_succ (fun c => (CDEdgeType.TRUE, c)) n.TrueChildren i h1, hnil]
        simp
    · have hlt2 : i + 1 < n.TrueChildren.length := by omega
      have hsucc : eiterSucc n ⟨.TRUE, i⟩ = ⟨.TRUE, i + 1⟩ := by
        simp [eiterSucc, ControlDependenceNode.listOf, h1, eiterNormalize, hT]
      rw [hsucc, ih (i + 1) hlt2 (by omega),
        ← map_drop_succ (fun c => (CDEdgeType.TRUE, c)) n.TrueChildren i h1,
        List.cons_append, List.cons_append]

/-- Claim C9: the edge iterator, walked from `begin()` to `end()`, visits
exactly the TRUE children, then the FALSE children, then the OTHER children,
in order, with `type()` at each position naming the list the current child
came from, and the number of positions equals `getNumChildren()`. -/
theorem C9_edge_iterator (n : ControlDependenceNode) :
    eiterTrace n (n.getNumChildren + 1) (eiterBegin n) =
      n.TrueChildren.map (fun c => (CDEdgeType.TRUE, c)) ++
      n.FalseChildren.map (fun c => (CDEdgeType.FALSE, c)) ++
      n.OtherChildren.map (fun c => (CDEdgeType.OTHER, c)) ∧
    (eiterTrace n (n.getNumChildren + 1) (eiterBegin n)).length =
      n.getNumChildren := by
  have htrace : eiterTrace n (n.getNumChildren + 1) (eiterBegin n) =
      n.TrueChildren.map (fun c => (CDEdgeType.TRUE, c)) ++
      n.FalseChildren.map (fun c => (CDEdgeType.FALSE, c)) ++
      n.OtherChildren.map (fun c => (CDEdgeType.OTHER, c)) := by
    by_cases hT : n.TrueChildren.length = 0
    · have hTnil : n.TrueChildren = [] := List.eq_nil_of_length_eq_zero hT
      by_cases hF : n.FalseChildren.length = 0
      · have hFnil : n.FalseChildren = [] := List.eq_nil_of_length_eq_zero hF
        have hbegin : eiterBegin n = ⟨.OTHER, 0⟩ := by
          simp [eiterBegin, eiterNormalize, hT, hF]
        rw [hbegin, eiterTrace_other n _ 0 (by omega)
          (by simp [ControlDependenceNode.getNumChildren]; omega)]
        simp [hTnil, hFnil]
      · have hbegin : eiterBegin n = ⟨.FALSE, 0⟩ := by
          simp [eiterBegin, eiterNormalize, hT, hF]
        rw [hbegin, eiterTrace_false n _ 0 (by omega)
          (by simp only [ControlDependenceNode.getNumChildren]; omega)]
        simp [hTnil]
    · have hT' : ¬ (0 = n.TrueChildren.length) := fun h => hT h.symm
      have hbegin : eiterBegin n = ⟨.TRUE, 0⟩ := by
        simp [eiterBegin, eiterNormalize, hT']
      rw [hbegin, eiterTrace_true n _ 0 (by omega)
        (by simp only [ControlDependenceNode.getNumChildren]; omega)]
      simp
  refine ⟨htrace, ?_⟩
  rw [htrace]
  simp only [List.length_append, List.length_map, ControlDependenceNode.getNumChildren]

/-! ### Structure of the built dependence edges -/

/-- Membership after an idempotent edge insertion. -/
theorem mem_insertDep {es : List (CDNodeId × CDEdgeType × CDNodeId)}
    {e x : CDNodeId × CDEdgeType × CDNodeId} (h : x ∈ insertDep es e) :
    x ∈ es ∨ x = e := by
  unfold insertDep at h
  by_cases he : e ∈ es
  · rw [if_pos he] at h
    exact Or.inl h
  · rw [if_neg he] at h
    rcases List.mem_append.mp h with h | h
    · exact Or.inl h
    · simp at h
      exact Or.inr h

/-- Membership after folding idempotent insertions over a walk. -/
theorem mem_foldl_insertDep (f : Nat → CDNodeId × CDEdgeType × CDNodeId) :
    ∀ (ws : List Nat) (es : List (CDNodeId × CDEdgeType × CDNodeId))
      (x : CDNodeId × CDEdgeType × CDNodeId),
      x ∈ ws.foldl (fun acc w => insertDep acc (f w)) es →
      x ∈ es ∨ ∃ w, w ∈ ws ∧ x = f w := by
  intro ws
  induction ws with
  | nil =>
    intro es x h
    exact Or.inl h
  | cons w ws ih =>
    intro es x h
    rcases ih _ x h with h' | ⟨w', hw', hx⟩
    · rcases mem_insertDep h' with h'' | h''
      · exact Or.inl h''
      · exact Or.inr ⟨w, List.mem_cons_self _ _, h''⟩
    · exact Or.inr ⟨w', List.mem_cons_of_mem _ hw', hx⟩

/-- Every raw dependence edge runs from a block node to a block node. -/
theorem rawGraph_edge_shape (cfg : CFG) :
    ∀ e ∈ (rawGraph cfg).edges,
      ∃ a t w, e = (CDNodeId.block a, t, CDNodeId.block w) := by
  have main : ∀ (l : List (Nat × Nat)) (es : List (CDNodeId × CDEdgeType × CDNodeId)),
      (∀ y ∈ es, ∃ a t w, y = (CDNodeId.block a, t, CDNodeId.block w)) →
      ∀ x ∈ l.foldl (processEdge cfg) es,
        ∃ a t w, x = (CDNodeId.block a, t, CDNodeId.block w) := by
    intro l
    induction l with
    | nil =>
      intro es hes x hx
      exact hes x hx
    | cons ab l ih =>
      intro es hes x hx
      refine ih _ ?_ x hx
      intro y hy
      by_cases hpd : cfg.pdt.postDominates ab.2 ab.1
      · simp only [processEdge, if_pos hpd] at hy
        exact hes y hy
      · simp only [processEdge, if_neg hpd] at hy
        rcases mem_foldl_insertDep _ _ _ _ hy with h | ⟨w, _, hx'⟩
        · exact hes y h
        · exact ⟨ab.1, _, w, hx'⟩
  intro e he
  exact main _ [] (by intro y hy; cases hy) e he

/-- Characterisation of membership in a node's parent list. -/
theorem mem_parentsOf {g : CDGraph} {p n : CDNodeId} :
    p ∈ parentsOf g n ↔ ∃ t, (p, t, n) ∈ g.edges := by
  constructor
  · intro h
    simp only [parentsOf, List.mem_map, List.mem_filter] at h
    obtain ⟨⟨p1, t1, c1⟩, ⟨he, hc⟩, hp⟩ := h
    simp at hc hp
    subst hc
    subst hp
    exact ⟨t1, he⟩
  · rintro ⟨t, ht⟩
    simp only [parentsOf, List.mem_map, List.mem_filter]
    exact ⟨(p, t, n), ⟨ht, by simp⟩, rfl⟩

/-- Characterisation of membership in a node's labelled parent-edge list. -/
theorem mem_parentEdgesOf {g : CDGraph} {p n : CDNodeId} {t : CDEdgeType} :
    (p, t) ∈ parentEdgesOf g n ↔ (p, t, n) ∈ g.edges := by
  constructor
  · intro h
    simp only [parentEdgesOf, List.mem_map, List.mem_filter] at h
    obtain ⟨⟨p1, t1, c1⟩, ⟨he, hc⟩, hp⟩ := h
    simp at hc hp
    obtain ⟨hp1, ht1⟩ := hp
    subst hc
    subst hp1
    subst ht1
    exact he
  · intro ht
    simp only [parentEdgesOf, List.mem_map, List.mem_filter]
    exact ⟨(p, t, n), ⟨ht, by simp⟩, rfl⟩

/-- Characterisation of membership in a node's labelled child list. -/
theorem mem_childrenOf {g : CDGraph} {n c : CDNodeId} {t : CDEdgeType} :
    c ∈ childrenOf g n t ↔ (n, t, c) ∈ g.edges := by
  constructor
  · intro h
    simp only [childrenOf, List.mem_map, List.mem_filter] at h
    obtain ⟨⟨p1, t1, c1⟩, ⟨he, hc⟩, hp⟩ := h
    simp at hc hp
    obtain ⟨hp1, ht1⟩ := hc
    subst hp
    subst hp1
    subst ht1
    exact he
  · intro ht
    simp only [childrenOf, List.mem_map, List.mem_filter]
    exact ⟨(n, t, c), ⟨ht, by simp⟩, rfl⟩

/-- A node has at least one parent exactly when some edge points into it. -/
theorem numParents_pos {g : CDGraph} {n : CDNodeId} :
    1 ≤ numParents g n ↔ ∃ p t, (p, t, n) ∈ g.edges := by
  constructor
  · intro h
    have : 0 < (parentsOf g n).length := h
    obtain ⟨p, hp⟩ := List.exists_mem_of_length_pos this
    obtain ⟨t, ht⟩ := mem_parentsOf.mp hp
    exact ⟨p, t, ht⟩
  · rintro ⟨p, t, ht⟩
    exact List.length_pos_of_mem (mem_parentsOf.mpr ⟨t, ht⟩)

/-- Membership in the edges after attaching parentless nodes to root. -/
theorem mem_attachRoot_edges {g : CDGraph} {e : CDNodeId × CDEdgeType × CDNodeId} :
    e ∈ (attachRoot g).edges ↔
      e ∈ g.edges ∨
      ∃ n, n ∈ g.nodes ∧ n ≠ .root ∧ parentsOf g n = [] ∧
        e = (CDNodeId.root, CDEdgeType.OTHER, n) := by
  simp only [attachRoot, List.mem_append, List.mem_map, List.mem_filter,
    decide_eq_true_eq]
  constructor
  · rintro (h | ⟨n, ⟨hn, hcond⟩, he⟩)
    · exact Or.inl h
    · exact Or.inr ⟨n, hn, hcond.1, hcond.2, he.symm⟩
  · rintro (h | ⟨n, hn, hnr, hp, he⟩)
    · exact Or.inl h
    · exact Or.inr ⟨n, ⟨hn, ⟨hnr, hp⟩⟩, he.symm⟩

/-- Every edge of the pre-compaction graph points into a block node. -/
theorem computeDeps_edge_child (cfg : CFG) :
    ∀ e ∈ (computeDependencies cfg).edges, ∃ w, e.2.2 = CDNodeId.block w := by
  intro e he
  rcases mem_attachRoot_edges.mp he with h | ⟨n, hn, hnr, _, he'⟩
  · rcases rawGraph_edge_shape cfg e h with ⟨a, t, w, rfl⟩
    exact ⟨w, rfl⟩
  · rcases List.mem_cons.mp hn with h0 | h0
    · exact absurd h0 hnr
    · rcases List.mem_map.mp h0 with ⟨w, _, hw⟩
      subst he'
      exact ⟨w, hw.symm⟩

/-- Every edge of the pre-compaction graph starts at root or a block node. -/
theorem computeDeps_edge_source (cfg : CFG) :
    ∀ e ∈ (computeDependencies cfg).edges,
      e.1 = CDNodeId.root ∨ ∃ a, e.1 = CDNodeId.block a := by
  intro e he
  rcases mem_attachRoot_edges.mp he with h | ⟨n, _, _, _, he'⟩
  · rcases rawGraph_edge_shape cfg e h with ⟨a, t, w, rfl⟩
    exact Or.inr ⟨a, rfl⟩
  · subst he'
    exact Or.inl rfl

/-- Before compaction, root has no parents. -/
theorem computeDeps_root_parents (cfg : CFG) :
    parentsOf (computeDependencies cfg) .root = [] := by
  rw [List.eq_nil_iff_forall_not_mem]
  intro p hp
  rcases mem_parentsOf.mp hp with ⟨t, ht⟩
  rcases computeDeps_edge_child cfg _ ht with ⟨w, hw⟩
  cases hw

/-- Before compaction, every non-root node of the graph has a parent. -/
theorem computeDeps_nonroot_parent (cfg : CFG) :
    ∀ n ∈ (computeDependencies cfg).nodes, n ≠ .root →
      ∃ p t, (p, t, n) ∈ (computeDependencies cfg).edges := by
  intro n hn hnr
  by_cases hp : parentsOf (rawGraph cfg) n = []
  · exact ⟨.root, .OTHER, mem_attachRoot_edges.mpr (Or.inr ⟨n, hn, hnr, hp, rfl⟩)⟩
  · obtain ⟨p, hp'⟩ := List.exists_mem_of_ne_nil _ hp
    obtain ⟨t, ht⟩ := mem_parentsOf.mp hp'
    exact ⟨p, t, mem_attachRoot_edges.mpr (Or.inl ht)⟩

/-! ### Structure of the compaction -/

/-- Membership in a non-root node list. -/
theorem mem_nonRootNodes {g : CDGraph} {x : CDNodeId} :
    x ∈ nonRootNodes g ↔ x ∈ g.nodes ∧ x ≠ .root := by
  simp [nonRootNodes, List.mem_filter]

/-- An indexed list's payloads come from the underlying list. -/
theorem mem_indexed_snd {α : Type} :
    ∀ (k : Nat) (l : List α) (i : Nat) (p : α), (i, p) ∈ indexed k l → p ∈ l := by
  intro k l
  induction l generalizing k with
  | nil =>
    intro i p h
    cases h
  | cons a l ih =>
    intro i p h
    rcases List.mem_cons.mp h with h | h
    · simp at h
      exact h.2 ▸ List.mem_cons_self _ _
    · exact List.mem_cons_of_mem _ (ih (k + 1) i p h)

/-- Indices produced by `indexed k` are at least `k`. -/
theorem mem_indexed_fst {α : Type} :
    ∀ (k : Nat) (l : List α) (i : Nat) (p : α), (i, p) ∈ indexed k l → k ≤ i := by
  intro k l
  induction l generalizing k with
  | nil =>
    intro i p h
    cases h
  | cons a l ih =>
    intro i p h
    rcases List.mem_cons.mp h with h | h
    · simp at h
      omega
    · have := ih (k + 1) i p h
      omega

/-- An index determines the payload in an indexed list. -/
theorem indexed_inj {α : Type} :
    ∀ (k : Nat) (l : List α) (i : Nat) (p q : α),
      (i, p) ∈ indexed k l → (i, q) ∈ indexed k l → p = q := by
  intro k l
  induction l generalizing k with
  | nil =>
    intro i p q h
    cases h
  | cons a l ih =>
    intro i p q hp hq
    rcases List.mem_cons.mp hp with hp | hp <;> rcases List.mem_cons.mp hq with hq | hq
    · simp at hp hq
      rw [hp.2, hq.2]
    · exfalso
      have h2 := mem_indexed_fst (k + 1) l i q hq
      simp at hp
      omega
    · exfalso
      have h2 := mem_indexed_fst (k + 1) l i p hp
      simp at hq
      omega
    · exact ih (k + 1) i p q hp hq

/-- A multi-member partition entry is a partition with more than one node. -/
theorem mem_multiParts {g : CDGraph} {ip : Nat × List CDNodeId}
    (h : ip ∈ multiParts g) : ip.2 ∈ partitions g ∧ 1 < ip.2.length := by
  obtain ⟨i, p⟩ := ip
  have hp := mem_indexed_snd 0 _ i p h
  have := List.mem_filter.mp hp
  exact ⟨this.1, by simpa using this.2⟩

/-- Membership in the folded-node set. -/
theorem mem_memberSet {g : CDGraph} {m : CDNodeId} :
    m ∈ memberSet g ↔ ∃ ip, ip ∈ multiParts g ∧ m ∈ ip.2 := by
  simp only [memberSet, List.mem_flatten, List.mem_map]
  constructor
  · rintro ⟨l, ⟨ip, hip, hl⟩, hm⟩
    exact ⟨ip, hip, hl ▸ hm⟩
  · rintro ⟨ip, hip, hm⟩
    exact ⟨ip.2, ⟨ip, hip, rfl⟩, hm⟩

/-- Membership in the member edges. -/
theorem mem_memberEdges {g : CDGraph} {e : CDNodeId × CDEdgeType × CDNodeId} :
    e ∈ memberEdges g ↔
      ∃ ip, ip ∈ multiParts g ∧ ∃ m, m ∈ ip.2 ∧
        e = (CDNodeId.region ip.1, CDEdgeType.OTHER, m) := by
  simp only [memberEdges, List.mem_flatten, List.mem_map]
  constructor
  · rintro ⟨l, ⟨ip, hip, hl⟩, hm⟩
    subst hl
    rcases List.mem_map.mp hm with ⟨m, hm', he⟩
    exact ⟨ip, hip, m, hm', he.symm⟩
  · rintro ⟨ip, hip, m, hm, he⟩
    refine ⟨ip.2.map (fun m => (CDNodeId.region ip.1, CDEdgeType.OTHER, m)),
      ⟨ip, hip, rfl⟩, ?_⟩
    exact he ▸ List.mem_map.mpr ⟨m, hm, rfl⟩

/-- Membership in the redirected edges. -/
theorem mem_redirectedEdges {g : CDGraph} {e : CDNodeId × CDEdgeType × CDNodeId} :
    e ∈ redirectedEdges g ↔
      ∃ ip, ip ∈ multiParts g ∧ ∃ rep rest, ip.2 = rep :: rest ∧
        ∃ pl, pl ∈ parentEdgesOf g rep ∧
          e = (pl.1, pl.2, CDNodeId.region ip.1) := by
  simp only [redirectedEdges, List.mem_flatten, List.mem_map]
  constructor
  · rintro ⟨l, ⟨ip, hip, hl⟩, hm⟩
    subst hl
    cases hcons : ip.2 with
    | nil =>
      rw [hcons] at hm
      cases hm
    | cons rep rest =>
      rw [hcons] at hm
      rcases List.mem_map.mp hm with ⟨pl, hpl, he⟩
      exact ⟨ip, hip, rep, rest, hcons, pl, hpl, he.symm⟩
  · rintro ⟨ip, hip, rep, rest, hcons, pl, hpl, he⟩
    refine ⟨(parentEdgesOf g rep).map (fun pl => (pl.1, pl.2, CDNodeId.region ip.1)),
      ⟨ip, hip, ?_⟩, ?_⟩
    · rw [hcons]
    · exact he ▸ List.mem_map.mpr ⟨pl, hpl, rfl⟩

/-- Everything placed in a group by `insertGroup` was in a group before or
is the inserted node. -/
theorem insertGroup_elems {g : CDGraph} {n x : CDNodeId} :
    ∀ {acc : List (List CDNodeId)} {p : List CDNodeId},
      p ∈ insertGroup g n acc → x ∈ p → (∃ q ∈ acc, x ∈ q) ∨ x = n := by
  intro acc
  induction acc with
  | nil =>
    intro p hp hx
    simp [insertGroup] at hp
    subst hp
    simp at hx
    exact Or.inr hx
  | cons grp rest ih =>
    intro p hp hx
    cases grp with
    | nil =>
      simp only [insertGroup] at hp
      rcases List.mem_cons.mp hp with hp | hp
      · subst hp
        simp at hx
        exact Or.inr hx
      · exact Or.inl ⟨p, List.mem_cons_of_mem _ hp, hx⟩
    | cons m ms =>
      by_cases hs : sigEq g m n = true
      · simp only [insertGroup, if_pos hs] at hp
        rcases List.mem_cons.mp hp with hp | hp
        · subst hp
          rcases List.mem_append.mp hx with hx | hx
          · exact Or.inl ⟨m :: ms, List.mem_cons_self _ _, hx⟩
          · simp at hx
            exact Or.inr hx
        · exact Or.inl ⟨p, List.mem_cons_of_mem _ hp, hx⟩
      · simp only [insertGroup, if_neg hs] at hp
        rcases List.mem_cons.mp hp with hp | hp
        · subst hp
          exact Or.inl ⟨m :: ms, List.mem_cons_self _ _, hx⟩
        · rcases ih hp hx with ⟨q, hq, hxq⟩ | h
          · exact Or.inl ⟨q, List.mem_cons_of_mem _ hq, hxq⟩
          · exact Or.inr h

/-- Everything in the partition fold came from the starting groups or the
processed nodes. -/
theorem foldl_insertGroup_elems (g : CDGraph) :
    ∀ (l : List CDNodeId) (acc : List (List CDNodeId)) (p : List CDNodeId)
      (x : CDNodeId),
      p ∈ l.foldl (fun a n => insertGroup g n a) acc → x ∈ p →
      (∃ q ∈ acc, x ∈ q) ∨ x ∈ l := by
  intro l
  induction l with
  | nil =>
    intro acc p x hp hx
    exact Or.inl ⟨p, hp, hx⟩
  | cons n l ih =>
    intro acc p x hp hx
    rcases ih _ p x hp hx with h | h
    · obtain ⟨q, hq, hxq⟩ := h
      rcases insertGroup_elems hq hxq with h' | h'
      · exact Or.inl h'
      · exact Or.inr (h' ▸ List.mem_cons_self _ _)
    · exact Or.inr (List.mem_cons_of_mem _ h)

/-- Partition members are non-root nodes of the graph. -/
theorem partitions_elems {g : CDGraph} {p : List CDNodeId} {x : CDNodeId}
    (hp : p ∈ partitions g) (hx : x ∈ p) : x ∈ nonRootNodes g := by
  rcases foldl_insertGroup_elems g _ _ p x hp hx with ⟨q, hq, _⟩ | h
  · cases hq
  · exact h

/-- Claim C3: after `runOnFunction` finishes, every non-root node of the
graph has at least one parent, and root has exactly zero parents. -/
theorem C3_connectivity (cfg : CFG) :
    (∀ n ∈ (runOnFunction cfg).nodes, n ≠ .root →
      1 ≤ numParents (runOnFunction cfg) n) ∧
    numParents (runOnFunction cfg) .root = 0 := by
  have hrun : runOnFunction cfg = insertRegions (computeDependencies cfg) := rfl
  set g := computeDependencies cfg with hg
  have hedges : (insertRegions g).edges =
      keptEdges g ++ redirectedEdges g ++ memberEdges g := rfl
  have hnodes : (insertRegions g).nodes =
      g.nodes ++ (multiParts g).map (fun ip => CDNodeId.region ip.1) := rfl
  constructor
  · intro n hn hnr
    rw [hrun] at hn ⊢
    rw [numParents_pos]
    rw [hnodes] at hn
    rcases List.mem_append.mp hn with hn | hn
    · by_cases hm : n ∈ memberSet g
      · rcases mem_memberSet.mp hm with ⟨ip, hip, hnp⟩
        refine ⟨.region ip.1, .OTHER, ?_⟩
        rw [hedges]
        exact List.mem_append.mpr
          (Or.inr (mem_memberEdges.mpr ⟨ip, hip, n, hnp, rfl⟩))
      · rcases computeDeps_nonroot_parent cfg n hn hnr with ⟨p, t, hpt⟩
        refine ⟨p, t, ?_⟩
        rw [hedges]
        refine List.mem_append.mpr (Or.inl (List.mem_append.mpr (Or.inl ?_)))
        exact List.mem_filter.mpr ⟨hpt, by simpa using hm⟩
    · rcases List.mem_map.mp hn with ⟨ip, hip, hreg⟩
      obtain ⟨hp_part, hlen⟩ := mem_multiParts hip
      obtain ⟨rep, rest, hcons⟩ : ∃ rep rest, ip.2 = rep :: rest := by
        cases h2 : ip.2 with
        | nil =>
          rw [h2] at hlen
          simp at hlen
        | cons a b => exact ⟨a, b, rfl⟩
      have hrep_mem : rep ∈ ip.2 := by
        rw [hcons]
        exact List.mem_cons_self _ _
      have hrep_nr := mem_nonRootNodes.mp (partitions_elems hp_part hrep_mem)
      rcases computeDeps_nonroot_parent cfg rep hrep_nr.1 hrep_nr.2 with ⟨p, t, hpt⟩
      refine ⟨p, t, ?_⟩
      rw [hedges, ← hreg]
      refine List.mem_append.mpr (Or.inl (List.mem_append.mpr (Or.inr ?_)))
      exact mem_redirectedEdges.mpr
        ⟨ip, hip, rep, rest, hcons, (p, t), mem_parentEdgesOf.mpr hpt, rfl⟩
  · rw [hrun]
    have hnil : parentsOf (insertRegions g) .root = [] := by
      rw [List.eq_nil_iff_forall_not_mem]
      intro p hp
      rcases mem_parentsOf.mp hp with ⟨t, ht⟩
      rw [hedges] at ht
      rcases List.mem_append.mp ht with ht' | ht'
      · rcases List.mem_append.mp ht' with ht'' | ht''
        · have hcd : (p, t, CDNodeId.root) ∈ g.edges :=
            (List.mem_filter.mp ht'').1
          rcases computeDeps_edge_child cfg _ hcd with ⟨w, hw⟩
          cases hw
        · rcases mem_redirectedEdges.mp ht'' with ⟨ip, _, _, _, _, _, _, he⟩
          cases he
      · rcases mem_memberEdges.mp ht' with ⟨ip, hip, m, hm, he⟩
        have : CDNodeId.root = m := congrArg (fun e => e.2.2) he
        have hm_nr := mem_nonRootNodes.mp
          (partitions_elems (mem_multiParts hip).1 hm)
        exact hm_nr.2 this.symm
    simp [numParents, hnil]

/-- Witness for C3 at the single-block procedure. -/
theorem C3_witness :
    1 ≤ numParents (runOnFunction singleBlockCFG) (.block 0) ∧
    numParents (runOnFunction singleBlockCFG) .root = 0 :=
  ⟨(C3_connectivity singleBlockCFG).1 (.block 0) (by decide) (by decide),
   (C3_connectivity singleBlockCFG).2⟩

/-! ### The partition respects parent-edge-set equality -/

/-- `sigEq` says the two labelled parent-edge sets coincide. -/
theorem sigEq_iff {g : CDGraph} {a b : CDNodeId} :
    sigEq g a b = true ↔
      ∀ e, e ∈ parentEdgesOf g a ↔ e ∈ parentEdgesOf g b := by
  unfold sigEq
  rw [Bool.and_eq_true, List.all_eq_true, List.all_eq_true]
  constructor
  · rintro ⟨h1, h2⟩ e
    constructor
    · intro he
      simpa using h1 e he
    · intro he
      simpa using h2 e he
  · intro h
    constructor
    · intro e he
      simpa using (h e).mp he
    · intro e he
      simpa using (h e).mpr he

/-- `sigEq` is reflexive. -/
theorem sigEq_refl (g : CDGraph) (a : CDNodeId) : sigEq g a a = true :=
  sigEq_iff.mpr (fun _ => Iff.rfl)

/-- `sigEq` is symmetric. -/
theorem sigEq_symm {g : CDGraph} {a b : CDNodeId} (h : sigEq g a b = true) :
    sigEq g b a = true :=
  sigEq_iff.mpr (fun e => (sigEq_iff.mp h e).symm)

/-- `sigEq` is transitive. -/
theorem sigEq_trans {g : CDGraph} {a b c : CDNodeId}
    (h1 : sigEq g a b = true) (h2 : sigEq g b c = true) : sigEq g a c = true :=
  sigEq_iff.mpr (fun e => (sigEq_iff.mp h1 e).trans (sigEq_iff.mp h2 e))

/-- `insertGroup` either keeps a group, extends one group by the new node,
or opens the singleton group of the new node. -/
theorem mem_insertGroup_cases {g : CDGraph} {n : CDNodeId} :
    ∀ {acc : List (List CDNodeId)} {q : List CDNodeId},
      q ∈ insertGroup g n acc →
      q ∈ acc ∨ (∃ q₀ ∈ acc, q = q₀ ++ [n]) ∨ q = [n] := by
  intro acc
  induction acc with
  | nil =>
    intro q hq
    simp [insertGroup] at hq
    exact Or.inr (Or.inr hq)
  | cons grp rest ih =>
    intro q hq
    cases grp with
    | nil =>
      simp only [insertGroup] at hq
      rcases List.mem_cons.mp hq with hq | hq
      · exact Or.inr (Or.inr hq)
      · exact Or.inl (List.mem_cons_of_mem _ hq)
    | cons m ms =>
      by_cases hs : sigEq g m n = true
      · simp only [insertGroup, if_pos hs] at hq
        rcases List.mem_cons.mp hq with hq | hq
        · exact Or.inr (Or.inl ⟨m :: ms, List.mem_cons_self _ _, hq⟩)
        · exact Or.inl (List.mem_cons_of_mem _ hq)
      · simp only [insertGroup, if_neg hs] at hq
        rcases List.mem_cons.mp hq with hq | hq
        · exact Or.inl (hq ▸ List.mem_cons_self _ _)
        · rcases ih hq with h | h | h
          · exact Or.inl (List.mem_cons_of_mem _ h)
          · obtain ⟨q₀, hq₀, he⟩ := h
            exact Or.inr (Or.inl ⟨q₀, List.mem_cons_of_mem _ hq₀, he⟩)
          · exact Or.inr (Or.inr h)

/-- `insertGroup` preserves the partition invariant. -/
theorem insertGroup_inv {g : CDGraph} {n : CDNodeId} :
    ∀ {acc : List (List CDNodeId)}, sameSigGroups g acc →
      sameSigGroups g (insertGroup g n acc) := by
  intro acc
  induction acc with
  | nil =>
    intro _
    constructor
    · intro p hp
      simp [insertGroup] at hp
      exact ⟨n, [], hp, by
        intro x hx
        rw [hp] at hx
        simp at hx
        rw [hx]
        exact sigEq_refl g n⟩
    · simp [insertGroup]
  | cons grp rest ih =>
    intro hInv
    obtain ⟨m, ms, hgrp_eq, hcoh⟩ := hInv.1 grp (List.mem_cons_self _ _)
    subst hgrp_eq
    have hpw := List.pairwise_cons.mp hInv.2
    have hInv_rest : sameSigGroups g rest :=
      ⟨fun p hp => hInv.1 p (List.mem_cons_of_mem _ hp), hpw.2⟩
    by_cases hs : sigEq g m n = true
    · rw [show insertGroup g n ((m :: ms) :: rest) =
        ((m :: ms) ++ [n]) :: rest from by simp [insertGroup, hs]]
      constructor
      · intro p hp
        rcases List.mem_cons.mp hp with hp | hp
        · refine ⟨m, ms ++ [n], by simp [hp], ?_⟩
          intro x hx
          rw [hp] at hx
          rcases List.mem_append.mp hx with hx | hx
          · exact hcoh x hx
          · simp at hx
            rw [hx]
            exact hs
        · exact hInv_rest.1 p hp
      · refine List.pairwise_cons.mpr ⟨?_, hpw.2⟩
        intro q hq x hx y hy
        rcases List.mem_append.mp hx with hx | hx
        · exact hpw.1 q hq x hx y hy
        · simp at hx
          subst hx
          intro hxy
          exact hpw.1 q hq m (List.mem_cons_self _ _) y hy (sigEq_trans hs hxy)
    · rw [show insertGroup g n ((m :: ms) :: rest) =
        (m :: ms) :: insertGroup g n rest from by simp [insertGroup, hs]]
      have hih := ih hInv_rest
      constructor
      · intro p hp
        rcases List.mem_cons.mp hp with hp | hp
        · exact ⟨m, ms, hp, hp ▸ hcoh⟩
        · exact hih.1 p hp
      · refine List.pairwise_cons.mpr ⟨?_, hih.2⟩
        intro q hq x hx y hy
        have hmx : sigEq g m x = true := hcoh x hx
        rcases mem_insertGroup_cases hq with h | h | h
        · exact hpw.1 q h x hx y hy
        · obtain ⟨q₀, hq₀, he⟩ := h
          subst he
          rcases List.mem_append.mp hy with hy | hy
          · exact hpw.1 q₀ hq₀ x hx y hy
          · simp at hy
            subst hy
            intro hxy
            exact hs (sigEq_trans hmx hxy)
        · subst h
          simp at hy
          subst hy
          intro hxy
          exact hs (sigEq_trans hmx hxy)

/-- Folded over any node list, the partition invariant is maintained. -/
theorem foldl_insertGroup_inv (g : CDGraph) :
    ∀ (l : List CDNodeId) (acc : List (List CDNodeId)),
      sameSigGroups g acc →
      sameSigGroups g (l.foldl (fun a n => insertGroup g n a) acc) := by
  intro l
  induction l with
  | nil =>
    intro acc h
    exact h
  | cons n l ih =>
    intro acc h
    exact ih _ (insertGroup_inv h)

/-- The partition of the non-root nodes satisfies the invariant. -/
theorem partitions_inv (g : CDGraph) : sameSigGroups g (partitions g) :=
  foldl_insertGroup_inv g _ []
    ⟨fun p hp => absurd hp (List.not_mem_nil p), List.Pairwise.nil⟩

/-- `insertGroup` keeps every already-placed node placed. -/
theorem insertGroup_preserves {g : CDGraph} {n x : CDNodeId} :
    ∀ {acc : List (List CDNodeId)}, (∃ p ∈ acc, x ∈ p) →
      ∃ p ∈ insertGroup g n acc, x ∈ p := by
  intro acc
  induction acc with
  | nil =>
    rintro ⟨p, hp, _⟩
    cases hp
  | cons grp rest ih =>
    rintro ⟨p, hp, hx⟩
    cases grp with
    | nil =>
      rcases List.mem_cons.mp hp with hp | hp
      · subst hp
        cases hx
      · exact ⟨p, List.mem_cons_of_mem _ hp, hx⟩
    | cons m ms =>
      by_cases hs : sigEq g m n = true
      · simp only [insertGroup, if_pos hs]
        rcases List.mem_cons.mp hp with hp | hp
        · subst hp
          exact ⟨(m :: ms) ++ [n], List.mem_cons_self _ _,
            List.mem_append.mpr (Or.inl hx)⟩
        · exact ⟨p, List.mem_cons_of_mem _ hp, hx⟩
      · simp only [insertGroup, if_neg hs]
        rcases List.mem_cons.mp hp with hp | hp
        · subst hp
          exact ⟨m :: ms, List.mem_cons_self _ _, hx⟩
        · obtain ⟨q, hq, hxq⟩ := ih ⟨p, hp, hx⟩
          exact ⟨q, List.mem_cons_of_mem _ hq, hxq⟩

/-- `insertGroup` places the inserted node somewhere. -/
theorem insertGroup_adds {g : CDGraph} {n : CDNodeId} :
    ∀ (acc : List (List CDNodeId)), ∃ p ∈ insertGroup g n acc, n ∈ p := by
  intro acc
  induction acc with
  | nil =>
    exact ⟨[n], List.mem_cons_self _ _, List.mem_cons_self _ _⟩
  | cons grp rest ih =>
    cases grp with
    | nil =>
      exact ⟨[n], List.mem_cons_self _ _, List.mem_cons_self _ _⟩
    | cons m ms =>
      by_cases hs : sigEq g m n = true
      · simp only [insertGroup, if_pos hs]
        exact ⟨(m :: ms) ++ [n], List.mem_cons_self _ _,
          List.mem_append.mpr (Or.inr (List.mem_cons_self _ _))⟩
      · simp only [insertGroup, if_neg hs]
        obtain ⟨p, hp, hn⟩ := ih
        exact ⟨p, List.mem_cons_of_mem _ hp, hn⟩

/-- Every non-root node lands in some partition. -/
theorem partitions_complete {g : CDGraph} {x : CDNodeId}
    (hx : x ∈ nonRootNodes g) : ∃ p ∈ partitions g, x ∈ p := by
  have main : ∀ (l : List CDNodeId) (acc : List (List CDNodeId)),
      (x ∈ l ∨ ∃ p ∈ acc, x ∈ p) →
      ∃ p ∈ l.foldl (fun a n => insertGroup g n a) acc, x ∈ p := by
    intro l
    induction l with
    | nil =>
      rintro acc (h | h)
      · cases h
      · exact h
    | cons n l ih =>
      rintro acc (h | h)
      · rcases List.mem_cons.mp h with h | h
        · subst h
          exact ih _ (Or.inr (insertGroup_adds acc))
        · exact ih _ (Or.inl h)
      · exact ih _ (Or.inr (insertGroup_preserves h))
  exact main _ [] (Or.inl hx)

/-- Any list member appears in the indexed list at some position. -/
theorem indexed_complete {α : Type} :
    ∀ (k : Nat) (l : List α) (p : α), p ∈ l → ∃ i, (i, p) ∈ indexed k l := by
  intro k l
  induction l generalizing k with
  | nil =>
    intro p h
    cases h
  | cons a l ih =>
    intro p h
    rcases List.mem_cons.mp h with h | h
    · exact ⟨k, h ▸ List.mem_cons_self _ _⟩
    · obtain ⟨i, hi⟩ := ih (k + 1) p h
      exact ⟨i, List.mem_cons_of_mem _ hi⟩

/-- Entries of an indexed pairwise list at distinct indices are related. -/
theorem indexed_pairwise {α : Type} {R : α → α → Prop}
    (hsymm : ∀ {a b : α}, R a b → R b a) :
    ∀ (k : Nat) (l : List α), List.Pairwise R l →
      ∀ i p j q, (i, p) ∈ indexed k l → (j, q) ∈ indexed k l → i ≠ j →
        R p q := by
  intro k l
  induction l generalizing k with
  | nil =>
    intro _ i p j q hp _ _
    cases hp
  | cons a l ih =>
    intro hpw i p j q hp hq hij
    have hpw' := List.pairwise_cons.mp hpw
    rcases List.mem_cons.mp hp with hp | hp <;> rcases List.mem_cons.mp hq with hq | hq
    · exfalso
      simp at hp hq
      omega
    · simp at hp
      exact hp.2 ▸ hpw'.1 q (mem_indexed_snd _ _ _ _ hq)
    · simp at hq
      exact hq.2 ▸ hsymm (hpw'.1 p (mem_indexed_snd _ _ _ _ hp))
    · exact ih (k + 1) hpw'.2 i p j q hp hq hij

/-- A list containing two distinct elements has more than one element. -/
theorem two_mem_length {α : Type} {x y : α} {p : List α}
    (hx : x ∈ p) (hy : y ∈ p) (hxy : x ≠ y) : 1 < p.length := by
  cases p with
  | nil => cases hx
  | cons a t =>
    simp only [List.length_cons]
    rcases List.mem_cons.mp hx with hx' | hx'
    · rcases List.mem_cons.mp hy with hy' | hy'
      · exact absurd (hx'.trans hy'.symm) hxy
      · have := List.length_pos_of_mem hy'
        omega
    · have := List.length_pos_of_mem hx'
      omega

/-- A multi-member partition appears in `multiParts` under some region id. -/
theorem multi_of_partition {g : CDGraph} {p : List CDNodeId}
    (h : p ∈ partitions g) (hlen : 1 < p.length) :
    ∃ i, (i, p) ∈ multiParts g := by
  apply indexed_complete
  exact List.mem_filter.mpr ⟨h, by simpa⟩

/-- The pairwise separation carries over to the multi-member partitions. -/
theorem multiParts_base_pairwise (g : CDGraph) :
    List.Pairwise (fun p q => ∀ x ∈ p, ∀ y ∈ q, ¬ (sigEq g x y = true))
      ((partitions g).filter (fun p => 1 < p.length)) :=
  (partitions_inv g).2.sublist (List.filter_sublist _)

/-- No node of the pre-compaction graph is a region. -/
theorem computeDeps_node_not_region {cfg : CFG} {n : CDNodeId}
    (hn : n ∈ (computeDependencies cfg).nodes) : ∀ i, n ≠ CDNodeId.region i := by
  intro i
  rcases List.mem_cons.mp hn with h | h
  · subst h
    simp
  · rcases List.mem_map.mp h with ⟨w, _, hw⟩
    subst hw
    simp

/-- Members of a multi partition are non-root nodes of the original graph. -/
theorem member_in_nodes {cfg : CFG} {ip : Nat × List CDNodeId} {m : CDNodeId}
    (hip : ip ∈ multiParts (computeDependencies cfg)) (hm : m ∈ ip.2) :
    m ∈ (computeDependencies cfg).nodes ∧ m ≠ CDNodeId.root :=
  mem_nonRootNodes.mp (partitions_elems (mem_multiParts hip).1 hm)

/-- A node belongs to the partitions of at most one region id. -/
theorem member_region_unique {g : CDGraph} {ip jp : Nat × List CDNodeId}
    {m : CDNodeId} (hip : ip ∈ multiParts g) (hjp : jp ∈ multiParts g)
    (hmi : m ∈ ip.2) (hmj : m ∈ jp.2) : ip.1 = jp.1 := by
  by_contra hne
  have hsep := indexed_pairwise
    (R := fun p q => ∀ x ∈ p, ∀ y ∈ q, ¬ (sigEq g x y = true))
    (fun h x hx y hy hxy => h y hy x hx (sigEq_symm hxy))
    0 _ (multiParts_base_pairwise g) ip.1 ip.2 jp.1 jp.2 hip hjp hne
  exact hsep m hmi m hmj (sigEq_refl g m)

/-- After compaction, a folded node's only labelled parent edge is the OTHER
edge from its region. -/
theorem member_parentEdge_char {cfg : CFG} {ip : Nat × List CDNodeId}
    {m : CDNodeId} (hip : ip ∈ multiParts (computeDependencies cfg))
    (hm : m ∈ ip.2) :
    (∀ e ∈ parentEdgesOf (insertRegions (computeDependencies cfg)) m,
      e = (CDNodeId.region ip.1, CDEdgeType.OTHER)) ∧
    (CDNodeId.region ip.1, CDEdgeType.OTHER) ∈
      parentEdgesOf (insertRegions (computeDependencies cfg)) m := by
  set g := computeDependencies cfg with hgdef
  have hmem : m ∈ memberSet g := mem_memberSet.mpr ⟨ip, hip, hm⟩
  have hedges : (insertRegions g).edges =
      keptEdges g ++ redirectedEdges g ++ memberEdges g := rfl
  constructor
  · rintro ⟨p, t⟩ he
    have hpe := mem_parentEdgesOf.mp he
    rw [hedges] at hpe
    rcases List.mem_append.mp hpe with hpe | hpe
    · rcases List.mem_append.mp hpe with hpe | hpe
      · exact absurd hmem (by simpa using (List.mem_filter.mp hpe).2)
      · rcases mem_redirectedEdges.mp hpe with ⟨jp, hjp, _, _, _, pl, _, he'⟩
        have : m = CDNodeId.region jp.1 := congrArg (fun e => e.2.2) he'
        exact absurd this (computeDeps_node_not_region (member_in_nodes hip hm).1 _)
    · rcases mem_memberEdges.mp hpe with ⟨jp, hjp, m', hm', he'⟩
      have h1 : p = CDNodeId.region jp.1 := congrArg (fun e => e.1) he'
      have h2 : t = CDEdgeType.OTHER := congrArg (fun e => e.2.1) he'
      have h3 : m = m' := congrArg (fun e => e.2.2) he'
      have hij : ip.1 = jp.1 := member_region_unique hip hjp hm (h3 ▸ hm')
      rw [h1, h2, hij]
  · refine mem_parentEdgesOf.mpr ?_
    rw [hedges]
    exact List.mem_append.mpr (Or.inr (mem_memberEdges.mpr ⟨ip, hip, m, hm, rfl⟩))

/-- After compaction, an unfolded original node keeps exactly its original
labelled parent edges. -/
theorem nonmember_parentEdge_char {cfg : CFG} {n : CDNodeId}
    (hn : n ∈ (computeDependencies cfg).nodes)
    (hnm : n ∉ memberSet (computeDependencies cfg))
    (e : CDNodeId × CDEdgeType) :
    e ∈ parentEdgesOf (insertRegions (computeDependencies cfg)) n ↔
    e ∈ parentEdgesOf (computeDependencies cfg) n := by
  set g := computeDependencies cfg with hgdef
  have hedges : (insertRegions g).edges =
      keptEdges g ++ redirectedEdges g ++ memberEdges g := rfl
  obtain ⟨p, t⟩ := e
  constructor
  · intro he
    have hpe := mem_parentEdgesOf.mp he
    rw [hedges] at hpe
    rcases List.mem_append.mp hpe with hpe | hpe
    · rcases List.mem_append.mp hpe with hpe | hpe
      · exact mem_parentEdgesOf.mpr (List.mem_filter.mp hpe).1
      · rcases mem_redirectedEdges.mp hpe with ⟨jp, hjp, _, _, _, pl, _, he'⟩
        have : n = CDNodeId.region jp.1 := congrArg (fun e => e.2.2) he'
        exact absurd this (computeDeps_node_not_region hn _)
    · rcases mem_memberEdges.mp hpe with ⟨jp, hjp, m', hm', he'⟩
      have h3 : n = m' := congrArg (fun e => e.2.2) he'
      exact absurd (mem_memberSet.mpr ⟨jp, hjp, h3 ▸ hm'⟩) hnm
  · intro he
    refine mem_parentEdgesOf.mpr ?_
    rw [hedges]
    refine List.mem_append.mpr (Or.inl (List.mem_append.mpr (Or.inl ?_)))
    exact List.mem_filter.mpr ⟨mem_parentEdgesOf.mp he, by simpa using hnm⟩

/-- After compaction, a region's labelled parent edges are exactly its
representative's original labelled parent edges. -/
theorem region_parentEdge_char {cfg : CFG} {ip : Nat × List CDNodeId}
    {rep : CDNodeId} {rest : List CDNodeId}
    (hip : ip ∈ multiParts (computeDependencies cfg)) (hcons : ip.2 = rep :: rest)
    (e : CDNodeId × CDEdgeType) :
    e ∈ parentEdgesOf (insertRegions (computeDependencies cfg))
      (CDNodeId.region ip.1) ↔
    e ∈ parentEdgesOf (computeDependencies cfg) rep := by
  set g := computeDependencies cfg with hgdef
  have hedges : (insertRegions g).edges =
      keptEdges g ++ redirectedEdges g ++ memberEdges g := rfl
  obtain ⟨p, t⟩ := e
  constructor
  · intro he
    have hpe := mem_parentEdgesOf.mp he
    rw [hedges] at hpe
    rcases List.mem_append.mp hpe with hpe | hpe
    · rcases List.mem_append.mp hpe with hpe | hpe
      · have hcd : (p, t, CDNodeId.region ip.1) ∈ g.edges :=
          (List.mem_filter.mp hpe).1
        rcases computeDeps_edge_child cfg _ hcd with ⟨w, hw⟩
        cases hw
      · rcases mem_redirectedEdges.mp hpe with
          ⟨jp, hjp, rep', rest', hcons', pl, hpl, he'⟩
        have hreg : CDNodeId.region ip.1 = CDNodeId.region jp.1 :=
          congrArg (fun e => e.2.2) he'
        injection hreg with hidx
        have hpay : jp.2 = ip.2 := by
          obtain ⟨j, pj⟩ := jp
          obtain ⟨i, pi⟩ := ip
          simp only at hidx
          subst hidx
          exact indexed_inj 0 _ _ _ _ hjp hip
        have hrep' : rep' = rep := by
          have h4 := hpay ▸ hcons'
          rw [hcons] at h4
          injection h4 with h5 h6
          exact h5.symm
        have hp1 : p = pl.1 := congrArg (fun e => e.1) he'
        have hp2 : t = pl.2 := congrArg (fun e => e.2.1) he'
        rw [hp1, hp2]
        rw [hrep'] at hpl
        simpa using hpl
    · rcases mem_memberEdges.mp hpe with ⟨jp, hjp, m', hm', he'⟩
      have h3 : CDNodeId.region ip.1 = m' := congrArg (fun e => e.2.2) he'
      exact absurd h3.symm
        (computeDeps_node_not_region (member_in_nodes hjp hm').1 _)
  · intro he
    refine mem_parentEdgesOf.mpr ?_
    rw [hedges]
    refine List.mem_append.mpr (Or.inl (List.mem_append.mpr (Or.inr ?_)))
    exact mem_redirectedEdges.mpr ⟨ip, hip, rep, rest, hcons, (p, t), he, rfl⟩

/-- Equal region ids in `multiParts` carry equal partitions. -/
theorem multiParts_inj {g : CDGraph} {ip jp : Nat × List CDNodeId}
    (hip : ip ∈ multiParts g) (hjp : jp ∈ multiParts g) (h : ip.1 = jp.1) :
    ip.2 = jp.2 := by
  obtain ⟨i, pi⟩ := ip
  obtain ⟨j, pj⟩ := jp
  simp only at h
  subst h
  exact indexed_inj 0 _ _ _ _ hip hjp

/-- Counterexample to claim C2 as stated: on the diamond, B (block 1) and C
(block 2) are distinct non-root nodes of the final graph with identical
parent sets (both `[A]`), and neither was folded under the graph's only
region node. -/
theorem C2_counterexample :
    (CDNodeId.block 1) ≠ (CDNodeId.block 2) ∧
    (CDNodeId.block 1) ∈ (runOnFunction diamondCFG).nodes ∧
    (CDNodeId.block 2) ∈ (runOnFunction diamondCFG).nodes ∧
    (CDNodeId.block 1) ≠ .root ∧ (CDNodeId.block 2) ≠ .root ∧
    parentsOf (runOnFunction diamondCFG) (.block 1) =
      parentsOf (runOnFunction diamondCFG) (.block 2) ∧
    (runOnFunction diamondCFG).nodes =
      [.root, .block 0, .block 1, .block 2, .block 3, .region 0] ∧
    (CDNodeId.block 1) ∉ childrenOf (runOnFunction diamondCFG) (.region 0) .OTHER := by
  decide

/-- Claim C2 amended: after compaction, two distinct non-root nodes with
set-equal *labelled* parent-edge sets exist only as co-members of one
region: both are OTHER-children of that shared region node, the region is
the sole labelled parent edge of each, and the region holds the members'
former (pre-compaction) parent edges.  (Bare parent sets ignoring labels can
still coincide without folding, and labelled sets coincide for co-members of
a region.) -/
theorem C2_compaction (cfg : CFG) :
    ∀ x y, x ∈ (runOnFunction cfg).nodes → y ∈ (runOnFunction cfg).nodes →
      x ≠ y → x ≠ .root → y ≠ .root →
      sigEq (runOnFunction cfg) x y = true →
      ∃ i,
        (∀ e ∈ parentEdgesOf (runOnFunction cfg) x,
          e = (CDNodeId.region i, CDEdgeType.OTHER)) ∧
        (CDNodeId.region i, CDEdgeType.OTHER) ∈
          parentEdgesOf (runOnFunction cfg) x ∧
        (∀ e ∈ parentEdgesOf (runOnFunction cfg) y,
          e = (CDNodeId.region i, CDEdgeType.OTHER)) ∧
        (CDNodeId.region i, CDEdgeType.OTHER) ∈
          parentEdgesOf (runOnFunction cfg) y ∧
        x ∈ childrenOf (runOnFunction cfg) (CDNodeId.region i) .OTHER ∧
        y ∈ childrenOf (runOnFunction cfg) (CDNodeId.region i) .OTHER ∧
        (∀ e, e ∈ parentEdgesOf (runOnFunction cfg) (CDNodeId.region i) ↔
          e ∈ parentEdgesOf (computeDependencies cfg) x) := by
  intro x y hx hy hxy hxr hyr hsig
  have classify : ∀ z, z ∈ (runOnFunction cfg).nodes →
      (∃ ip, ip ∈ multiParts (computeDependencies cfg) ∧ z ∈ ip.2) ∨
      ((z ∈ (computeDependencies cfg).nodes ∧
          z ∉ memberSet (computeDependencies cfg)) ∨
       ∃ ip rep rest, ip ∈ multiParts (computeDependencies cfg) ∧
         ip.2 = rep :: rest ∧ z = CDNodeId.region ip.1) := by
    intro z hz
    rcases List.mem_append.mp hz with hz | hz
    · by_cases hm : z ∈ memberSet (computeDependencies cfg)
      · exact Or.inl (mem_memberSet.mp hm)
      · exact Or.inr (Or.inl ⟨hz, hm⟩)
    · rcases List.mem_map.mp hz with ⟨ip, hip, hreg⟩
      obtain ⟨hpart, hlen⟩ := mem_multiParts hip
      obtain ⟨rep, rest, hcons⟩ : ∃ rep rest, ip.2 = rep :: rest := by
        cases h2 : ip.2 with
        | nil =>
          rw [h2] at hlen
          simp at hlen
        | cons a b => exact ⟨a, b, rfl⟩
      exact Or.inr (Or.inr ⟨ip, rep, rest, hip, hcons, hreg.symm⟩)
  rcases classify x hx with hxM | hxO <;> rcases classify y hy with hyM | hyO
  · -- both folded: same region, full conclusion
    obtain ⟨ip, hip, hxip⟩ := hxM
    obtain ⟨jp, hjp, hyjp⟩ := hyM
    obtain ⟨hxall, hxmem⟩ := member_parentEdge_char hip hxip
    obtain ⟨hyall0, _⟩ := member_parentEdge_char hjp hyjp
    have hidx : ip.1 = jp.1 := by
      have h := hyall0 _ ((sigEq_iff.mp hsig _).mp hxmem)
      simpa using h
    have hyip : y ∈ ip.2 := by
      rw [multiParts_inj hip hjp hidx]
      exact hyjp
    obtain ⟨hyall, hymem⟩ := member_parentEdge_char hip hyip
    obtain ⟨h0, t0, heq, hcoh⟩ :=
      (partitions_inv (computeDependencies cfg)).1 ip.2 (mem_multiParts hip).1
    refine ⟨ip.1, hxall, hxmem, hyall, hymem, ?_, ?_, ?_⟩
    · exact mem_childrenOf.mpr (List.mem_append.mpr
        (Or.inr (mem_memberEdges.mpr ⟨ip, hip, x, hxip, rfl⟩)))
    · exact mem_childrenOf.mpr (List.mem_append.mpr
        (Or.inr (mem_memberEdges.mpr ⟨ip, hip, y, hyip, rfl⟩)))
    · intro e
      exact (region_parentEdge_char hip heq e).trans
        (sigEq_iff.mp (hcoh x hxip) e)
  · -- folded vs unfolded: their labelled parent sets cannot match
    exfalso
    obtain ⟨ip, hip, hxip⟩ := hxM
    have hxmem := (member_parentEdge_char hip hxip).2
    have hy' : (CDNodeId.region ip.1, CDEdgeType.OTHER) ∈
        parentEdgesOf (runOnFunction cfg) y := (sigEq_iff.mp hsig _).mp hxmem
    rcases hyO with ⟨hyn, hynm⟩ | ⟨jp, repy, resty, hjp, hconsy, hregy⟩
    · have h1 := (nonmember_parentEdge_char hyn hynm _).mp hy'
      have h2 := mem_parentEdgesOf.mp h1
      rcases computeDeps_edge_source cfg _ h2 with h3 | ⟨a, h3⟩ <;> simp at h3
    · subst hregy
      have h1 := (region_parentEdge_char hjp hconsy _).mp hy'
      have h2 := mem_parentEdgesOf.mp h1
      rcases computeDeps_edge_source cfg _ h2 with h3 | ⟨a, h3⟩ <;> simp at h3
  · -- unfolded vs folded: symmetric contradiction
    exfalso
    obtain ⟨jp, hjp, hyjp⟩ := hyM
    have hymem := (member_parentEdge_char hjp hyjp).2
    have hx' : (CDNodeId.region jp.1, CDEdgeType.OTHER) ∈
        parentEdgesOf (runOnFunction cfg) x := (sigEq_iff.mp hsig _).mpr hymem
    rcases hxO with ⟨hxn, hxnm⟩ | ⟨ip, repx, restx, hip, hconsx, hregx⟩
    · have h1 := (nonmember_parentEdge_char hxn hxnm _).mp hx'
      have h2 := mem_parentEdgesOf.mp h1
      rcases computeDeps_edge_source cfg _ h2 with h3 | ⟨a, h3⟩ <;> simp at h3
    · subst hregx
      have h1 := (region_parentEdge_char hip hconsx _).mp hx'
      have h2 := mem_parentEdgesOf.mp h1
      rcases computeDeps_edge_source cfg _ h2 with h3 | ⟨a, h3⟩ <;> simp at h3
  · -- both unfolded: distinct unfolded nodes never have equal labelled sets
    exfalso
    rcases hxO with ⟨hxn, hxnm⟩ | ⟨ip, repx, restx, hip, hconsx, hregx⟩ <;>
      rcases hyO with ⟨hyn, hynm⟩ | ⟨jp, repy, resty, hjp, hconsy, hregy⟩
    · have hsg : sigEq (computeDependencies cfg) x y = true :=
        sigEq_iff.mpr (fun e =>
          ((nonmember_parentEdge_char hxn hxnm e).symm.trans
            (sigEq_iff.mp hsig e)).trans (nonmember_parentEdge_char hyn hynm e))
      obtain ⟨px, hpx, hxpx⟩ :=
        partitions_complete (mem_nonRootNodes.mpr ⟨hxn, hxr⟩)
      obtain ⟨py, hpy, hypy⟩ :=
        partitions_complete (mem_nonRootNodes.mpr ⟨hyn, hyr⟩)
      obtain ⟨i1, hi1⟩ := indexed_complete 0 _ px hpx
      obtain ⟨i2, hi2⟩ := indexed_complete 0 _ py hpy
      by_cases hii : i1 = i2
      · subst hii
        have hpp : px = py := indexed_inj 0 _ _ _ _ hi1 hi2
        subst hpp
        obtain ⟨k, hk⟩ := multi_of_partition hpx (two_mem_length hxpx hypy hxy)
        exact hxnm (mem_memberSet.mpr ⟨(k, px), hk, hxpx⟩)
      · exact indexed_pairwise
          (R := fun p q => ∀ a ∈ p, ∀ b ∈ q,
            ¬ (sigEq (computeDependencies cfg) a b = true))
          (fun h a ha b hb hab => h b hb a ha (sigEq_symm hab))
          0 _ (partitions_inv (computeDependencies cfg)).2
          i1 px i2 py hi1 hi2 hii x hxpx y hypy hsg
    · subst hregy
      have hsg : sigEq (computeDependencies cfg) x repy = true :=
        sigEq_iff.mpr (fun e =>
          ((nonmember_parentEdge_char hxn hxnm e).symm.trans
            (sigEq_iff.mp hsig e)).trans (region_parentEdge_char hjp hconsy e))
      obtain ⟨px, hpx, hxpx⟩ :=
        partitions_complete (mem_nonRootNodes.mpr ⟨hxn, hxr⟩)
      have hjpart : jp.2 ∈ partitions (computeDependencies cfg) :=
        (mem_multiParts hjp).1
      have hry : repy ∈ jp.2 := by
        rw [hconsy]
        exact List.mem_cons_self _ _
      obtain ⟨i1, hi1⟩ := indexed_complete 0 _ px hpx
      obtain ⟨i2, hi2⟩ := indexed_complete 0 _ jp.2 hjpart
      by_cases hii : i1 = i2
      · subst hii
        have hpp : px = jp.2 := indexed_inj 0 _ _ _ _ hi1 hi2
        exact hxnm (mem_memberSet.mpr ⟨jp, hjp, hpp ▸ hxpx⟩)
      · exact indexed_pairwise
          (R := fun p q => ∀ a ∈ p, ∀ b ∈ q,
            ¬ (sigEq (computeDependencies cfg) a b = true))
          (fun h a ha b hb hab => h b hb a ha (sigEq_symm hab))
          0 _ (partitions_inv (computeDependencies cfg)).2
          i1 px i2 jp.2 hi1 hi2 hii x hxpx repy hry hsg
    · subst hregx
      have hsg : sigEq (computeDependencies cfg) repx y = true :=
        sigEq_iff.mpr (fun e =>
          ((region_parentEdge_char hip hconsx e).symm.trans
            (sigEq_iff.mp hsig e)).trans (nonmember_parentEdge_char hyn hynm e))
      obtain ⟨py, hpy, hypy⟩ :=
        partitions_complete (mem_nonRootNodes.mpr ⟨hyn, hyr⟩)
      have hipart : ip.2 ∈ partitions (computeDependencies cfg) :=
        (mem_multiParts hip).1
      have hrx : repx ∈ ip.2 := by
        rw [hconsx]
        exact List.mem_cons_self _ _
      obtain ⟨i1, hi1⟩ := indexed_complete 0 _ ip.2 hipart
      obtain ⟨i2, hi2⟩ := indexed_complete 0 _ py hpy
      by_cases hii : i1 = i2
      · subst hii
        have hpp : ip.2 = py := indexed_inj 0 _ _ _ _ hi1 hi2
        exact hynm (mem_memberSet.mpr ⟨ip, hip, hpp.symm ▸ hypy⟩)
      · exact indexed_pairwise
          (R := fun p q => ∀ a ∈ p, ∀ b ∈ q,
            ¬ (sigEq (computeDependencies cfg) a b = true))
          (fun h a ha b hb hab => h b hb a ha (sigEq_symm hab))
          0 _ (partitions_inv (computeDependencies cfg)).2
          i1 ip.2 i2 py hi1 hi2 hii repx hrx y hypy hsg
    · subst hregx
      subst hregy
      have hne : ip.1 ≠ jp.1 := fun h => hxy (by rw [h])
      have hsg : sigEq (computeDependencies cfg) repx repy = true :=
        sigEq_iff.mpr (fun e =>
          ((region_parentEdge_char hip hconsx e).symm.trans
            (sigEq_iff.mp hsig e)).trans (region_parentEdge_char hjp hconsy e))
      have hrx : repx ∈ ip.2 := by
        rw [hconsx]
        exact List.mem_cons_self _ _
      have hry : repy ∈ jp.2 := by
        rw [hconsy]
        exact List.mem_cons_self _ _
      exact indexed_pairwise
        (R := fun p q => ∀ a ∈ p, ∀ b ∈ q,
          ¬ (sigEq (computeDependencies cfg) a b = true))
        (fun h a ha b hb hab => h b hb a ha (sigEq_symm hab))
        0 _ (multiParts_base_pairwise (computeDependencies cfg))
        ip.1 ip.2 jp.1 jp.2 hip hjp hne repx hrx repy hry hsg

/-- Witness for C2 at the diamond: A (block 0) and D (block 3) have equal
labelled parent-edge sets after compaction and are exhibited as OTHER
children of one shared region. -/
theorem C2_witness :
    ∃ i,
      (∀ e ∈ parentEdgesOf (runOnFunction diamondCFG) (.block 0),
        e = (CDNodeId.region i, CDEdgeType.OTHER)) ∧
      (CDNodeId.region i, CDEdgeType.OTHER) ∈
        parentEdgesOf (runOnFunction diamondCFG) (.block 0) ∧
      (∀ e ∈ parentEdgesOf (runOnFunction diamondCFG) (.block 3),
        e = (CDNodeId.region i, CDEdgeType.OTHER)) ∧
      (CDNodeId.region i, CDEdgeType.OTHER) ∈
        parentEdgesOf (runOnFunction diamondCFG) (.block 3) ∧
      (CDNodeId.block 0) ∈ childrenOf (runOnFunction diamondCFG)
        (CDNodeId.region i) .OTHER ∧
      (CDNodeId.block 3) ∈ childrenOf (runOnFunction diamondCFG)
        (CDNodeId.region i) .OTHER ∧
      (∀ e, e ∈ parentEdgesOf (runOnFunction diamondCFG) (CDNodeId.region i) ↔
        e ∈ parentEdgesOf (computeDependencies diamondCFG) (.block 0)) :=
  C2_compaction diamondCFG (.block 0) (.block 3) (by decide) (by decide)
    (by decide) (by decide) (by decide) (by decide)

end CDG
